import Mathlib

/-!
Verification of the NFA library (src/NFA.py): a shallow embedding of the
data model, mutators, simulation engine, reachability analyzer, the
serialization round-trip and the three Thompson composition operators,
together with theorems settling the specification claims.

Modelling conventions:
* Python `set` of states — `Finset Nat`; `set` of symbols — `Finset Char`.
* The Python dict `transition_table : {(state, symbol): set(next_states)}`
  is an association list `List ((Nat × Char) × Finset Nat)`; `tget` is
  `dict.get(key, [])`, `tupdate` is the create-if-missing-then-`update`
  idiom, `tset` is plain assignment `d[key] = v`.
* The epsilon marker is the NUL character, exactly as in the source.
* A Python method that may `raise` is modelled as returning
  `NFA × Option NfaErr`: the error component is `none` on normal return,
  and on an exception the first component is the receiver as the caller
  still observes it.
-/

namespace NfaModel

/-- The three error kinds raised by `NFA.add_transition`. -/
inductive NfaErr where
  | invalidSymbol (c : Char) : NfaErr
  | unknownState (s : Nat) : NfaErr
  | illegalStartTarget (f t : Nat) : NfaErr
deriving DecidableEq

/-- The epsilon marker used by the composition operators in `NFA.py`:
the NUL character. -/
def epsSymbol : Char := Char.ofNat 0

/-- The transition table: an association list standing for the Python dict
keyed by `(state, symbol)` with `Finset Nat` values. -/
abbrev Table := List ((Nat × Char) × Finset Nat)

/-- `NFA.__init__`: states, alphabet, empty-by-default transition table,
start state and accept states. -/
structure NFA where
  states : Finset Nat
  alphabet : Finset Char
  transition_table : Table
  start_state : Nat
  accept_states : Finset Nat
deriving DecidableEq

/-- `self.transition_table.get(key, [])`: the entry for the key (a Python
dict holds each key once, so the first entry), or the empty set when the
key is absent. -/
def tget : Table → (Nat × Char) → Finset Nat
  | [], _ => ∅
  | e :: t, k => if e.1 = k then e.2 else tget t k

/-- `key in d`: whether the table holds an entry for the key. -/
def tmem : Table → (Nat × Char) → Bool
  | [], _ => false
  | e :: t, k => decide (e.1 = k) || tmem t k

/-- The dict idiom `if key not in d: d[key] = set(); d[key].update(v)`:
union `v` into the entry for `k`, creating it when absent. -/
def tupdate (t : Table) (k : Nat × Char) (v : Finset Nat) : Table :=
  if tmem t k then
    t.map (fun e => if e.1 = k then (e.1, e.2 ∪ v) else e)
  else
    t ++ [(k, v)]

/-- Plain dict assignment `d[key] = v`: replace the entry for `k`,
creating it when absent. -/
def tset (t : Table) (k : Nat × Char) (v : Finset Nat) : Table :=
  if tmem t k then
    t.map (fun e => if e.1 = k then (e.1, v) else e)
  else
    t ++ [(k, v)]

/-- The merge loop of `concatenation`/`alternative`:
`for k, v in other.items(): if k in d: d[k].update(v) else: d[k] = set(v)`. -/
def tmerge (t1 t2 : Table) : Table :=
  t2.foldl (fun acc e => tupdate acc e.1 e.2) t1

/-- The per-element validation loop inside `NFA.add_transition`: each target
must be a known state and must differ from the start state, checked in that
order, stopping at the first violation. -/
def checkTargets (nfa : NFA) (f : Nat) : List Nat → Option NfaErr
  | [] => none
  | s :: rest =>
    if s ∉ nfa.states then some (NfaErr.unknownState s)
    else if s = nfa.start_state then some (NfaErr.illegalStartTarget f s)
    else checkTargets nfa f rest

/-- `NFA.add_transition(from_state, symbol, to_states)`: validate the symbol,
the source and every target, and only then union the targets into the table
entry for `(from_state, symbol)`. -/
def add_transition (nfa : NFA) (from_state : Nat) (symbol : Char)
    (to_states : List Nat) : NFA × Option NfaErr :=
  if symbol ∉ nfa.alphabet then (nfa, some (NfaErr.invalidSymbol symbol))
  else if from_state ∉ nfa.states then (nfa, some (NfaErr.unknownState from_state))
  else
    match checkTargets nfa from_state to_states with
    | some e => (nfa, some e)
    | none =>
      let t := tupdate nfa.transition_table (from_state, symbol) to_states.toFinset
      ({ nfa with transition_table := t }, none)

/-- `max(self.states)` as the source computes it (the source raises on an
empty set; the model returns 0 there and the theorems assume nonemptiness). -/
def maxState (s : Finset Nat) : Nat := s.sup id

/-- A concrete enumeration of a finite set of states, standing in for
Python's unspecified set iteration order: ascending. -/
def finsetToList (s : Finset Nat) : List Nat :=
  (List.range (maxState s + 1)).filter (fun a => decide (a ∈ s))

/-- A concrete enumeration of a finite set of symbols, standing in for
Python's unspecified set iteration order: by code point. -/
def charFinsetToList (s : Finset Char) : List Char :=
  ((List.range (s.sup Char.toNat + 1)).filter
    (fun n => decide (Char.ofNat n ∈ s))).map Char.ofNat

/-- `NFA.new_state`: add `max(self.states) + 1` to the state set.  The
Python method has no `return` statement, so its value is `None`, modelled
as the `none` component of the result. -/
def new_state (nfa : NFA) : NFA × Option Nat :=
  ({ nfa with states := insert (maxState nfa.states + 1) nfa.states }, none)

/-- `NFA._run_helper(current_state, input_str, index)`: on exhausted input
report membership in the accept states; otherwise the for-loop with its
early `return True` succeeds precisely when some target of
`(current_state, current_symbol)` leads to acceptance of the rest. -/
def runHelper (nfa : NFA) : Nat → List Char → Bool
  | q, [] => decide (q ∈ nfa.accept_states)
  | q, c :: rest =>
    decide (∃ s ∈ tget nfa.transition_table (q, c), runHelper nfa s rest = true)

/-- `NFA.run(input_str)`: start the search at the start state. -/
def run (nfa : NFA) (input : List Char) : Bool :=
  runHelper nfa nfa.start_state input

/-- All transition targets appearing anywhere in a table (only used to
bound the reachability worklist). -/
def allTargets : Table → Finset Nat
  | [] => ∅
  | e :: t => e.2 ∪ allTargets t

/-- The inner double loop of `get_unreachable`: the targets of `s` under
the symbols of the declared alphabet (the loop runs over `self.alphabet`
only, so epsilon-keyed entries are never consulted). -/
def stepTargets (nfa : NFA) (s : Nat) : Finset Nat :=
  nfa.alphabet.sup (fun c => tget nfa.transition_table (s, c))

/-- The while-loop of `get_unreachable`: pop a boundary state and add its
not-yet-reachable alphabet-symbol targets to both the reachable set and
the boundary. -/
def bfsAux (nfa : NFA) (reach : Finset Nat) (bd : List Nat) : Finset Nat :=
  match bd with
  | [] => reach
  | s :: bd =>
    bfsAux nfa (reach ∪ (stepTargets nfa s).filter (fun t => t ∉ reach))
      (bd ++ finsetToList ((stepTargets nfa s).filter (fun t => t ∉ reach)))
termination_by 2 * (allTargets nfa.transition_table \ reach).card + bd.length
decreasing_by
  have key : ∀ (t : Table) (k : Nat × Char), tget t k ⊆ allTargets t := by
    intro t k
    induction t with
    | nil => intro x hx; simp [tget] at hx
    | cons e t ih =>
      intro x hx
      rw [tget] at hx
      rw [allTargets, Finset.mem_union]
      by_cases h : e.1 = k
      · rw [if_pos h] at hx; exact Or.inl hx
      · rw [if_neg h] at hx; exact Or.inr (ih hx)
  have hsub : (stepTargets nfa s).filter (fun t => t ∉ reach)
      ⊆ allTargets nfa.transition_table \ reach := by
    intro x hx
    rw [Finset.mem_filter] at hx
    rw [Finset.mem_sdiff]
    refine ⟨?_, hx.2⟩
    have hx1 := hx.1
    rw [stepTargets, Finset.mem_sup] at hx1
    obtain ⟨c, _, hxc⟩ := hx1
    exact key _ _ hxc
  have hcard := Finset.card_le_card hsub
  have heq : allTargets nfa.transition_table
        \ (reach ∪ (stepTargets nfa s).filter (fun t => t ∉ reach))
      = (allTargets nfa.transition_table \ reach)
        \ (stepTargets nfa s).filter (fun t => t ∉ reach) := by
    ext x
    simp only [Finset.mem_sdiff, Finset.mem_union]
    tauto
  have hc2 := Finset.card_sdiff hsub
  have hnd : (finsetToList ((stepTargets nfa s).filter (fun t => t ∉ reach))).Nodup :=
    List.Nodup.filter _ (List.nodup_range _)
  have hmem : ∀ a, a ∈ finsetToList ((stepTargets nfa s).filter (fun t => t ∉ reach))
      ↔ a ∈ (stepTargets nfa s).filter (fun t => t ∉ reach) := by
    intro a
    rw [finsetToList, List.mem_filter, List.mem_range]
    constructor
    · intro h; exact of_decide_eq_true h.2
    · intro h
      refine ⟨?_, decide_eq_true h⟩
      have h2 : id a ≤ Finset.sup ((stepTargets nfa s).filter (fun t => t ∉ reach)) id :=
        Finset.le_sup h
      simp only [id_eq] at h2
      simp only [maxState]
      omega
  have hlen : (finsetToList ((stepTargets nfa s).filter (fun t => t ∉ reach))).length
      = ((stepTargets nfa s).filter (fun t => t ∉ reach)).card := by
    rw [← List.toFinset_card_of_nodup hnd]
    congr 1
    ext a
    rw [List.mem_toFinset]
    exact hmem a
  simp only [List.length_append, List.length_cons, heq, hc2, hlen]
  omega

/-- The `reachable_states` set that `get_unreachable` computes, beginning
with the start state in both the reachable set and the boundary. -/
def reachableStates (nfa : NFA) : Finset Nat :=
  bfsAux nfa {nfa.start_state} [nfa.start_state]

/-- `NFA.get_unreachable`: the declared states minus the traversed ones. -/
def get_unreachable (nfa : NFA) : Finset Nat :=
  nfa.states \ reachableStates nfa

/-- `NFA.remove_unreachable`: drop unreachable states from `states` and
`accept_states`, and drop every table entry whose source is unreachable. -/
def remove_unreachable (nfa : NFA) : NFA :=
  { states := nfa.states \ get_unreachable nfa
    alphabet := nfa.alphabet
    transition_table :=
      nfa.transition_table.filter (fun e => decide (e.1.1 ∉ get_unreachable nfa))
    start_state := nfa.start_state
    accept_states := nfa.accept_states \ get_unreachable nfa }

/-- `NFA.get_with_offset(offset)`: shift every state identifier in
`states`, the table keys and values, `start_state` and `accept_states`. -/
def get_with_offset (nfa : NFA) (offset : Nat) : NFA :=
  { states := nfa.states.image (fun s => s + offset)
    alphabet := nfa.alphabet
    transition_table := nfa.transition_table.map
      (fun e => ((e.1.1 + offset, e.1.2), e.2.image (fun s => s + offset)))
    start_state := nfa.start_state + offset
    accept_states := nfa.accept_states.image (fun s => s + offset) }

/-- `NFA.concatenation(nfa1, nfa2)`: in the source the computed offset is
immediately overwritten with `0` and `nfa2` is used as-is (no renumbering).
Merge the two tables, then add an epsilon edge from every accept state of
`nfa1` to the start of `nfa2`; start is `nfa1`'s, accepts are `nfa2`'s. -/
def concatenation (nfa1 nfa2 : NFA) : NFA :=
  { states := nfa1.states ∪ nfa2.states
    alphabet := nfa1.alphabet ∪ nfa2.alphabet
    transition_table :=
      (finsetToList nfa1.accept_states).foldl
        (fun t a => tupdate t (a, epsSymbol) {nfa2.start_state})
        (tmerge nfa1.transition_table nfa2.transition_table)
    start_state := nfa1.start_state
    accept_states := nfa2.accept_states }

/-- `NFA.alternative(nfa1, nfa2)`: renumber `nfa2` past `nfa1`, allocate a
fresh start state past both, merge the tables and add epsilon edges from
the new start to both old starts. -/
def alternative (nfa1 nfa2 : NFA) : NFA :=
  let nfa2o := get_with_offset nfa2 (maxState nfa1.states + 1)
  let new_start := maxState nfa2o.states + 1
  { states := nfa1.states ∪ nfa2o.states ∪ {new_start}
    alphabet := nfa1.alphabet ∪ nfa2o.alphabet
    transition_table :=
      tset (tmerge nfa1.transition_table nfa2o.transition_table)
        (new_start, epsSymbol) {nfa1.start_state, nfa2o.start_state}
    start_state := new_start
    accept_states := nfa1.accept_states ∪ nfa2o.accept_states }

/-- `NFA.iteration(nfa)`: allocate a fresh start state, also accepting;
add an epsilon edge from it to the old start and an epsilon edge from
every accept state to the old start. -/
def iteration (nfa : NFA) : NFA :=
  let new_start := maxState nfa.states + 1
  { states := nfa.states ∪ {new_start}
    alphabet := nfa.alphabet
    transition_table :=
      (finsetToList nfa.accept_states).foldl
        (fun t a => tupdate t (a, epsSymbol) {nfa.start_state})
        (tset nfa.transition_table (new_start, epsSymbol) {nfa.start_state})
    start_state := new_start
    accept_states := nfa.accept_states ∪ {new_start} }

/-- One record of the serialized `transition_table`. -/
structure TransRecord where
  from_state : Nat
  symbol : Char
  to_states : List Nat
deriving DecidableEq

/-- The JSON document produced by `NFA.to_json`. -/
structure NFAJson where
  states : List Nat
  alphabet : List Char
  transition_table : List TransRecord
  start_state : Nat
  accept_states : List Nat
deriving DecidableEq

/-- `NFA.to_json`: list out every component (Python lists a set in
unspecified order; the model lists it in sorted order). -/
def to_json (nfa : NFA) : NFAJson :=
  { states := finsetToList nfa.states
    alphabet := charFinsetToList nfa.alphabet
    transition_table := nfa.transition_table.map
      (fun e => ⟨e.1.1, e.1.2, finsetToList e.2⟩)
    start_state := nfa.start_state
    accept_states := finsetToList nfa.accept_states }

/-- The loop of `NFA.from_json`: re-add every serialized transition through
`add_transition`; the first exception aborts the loop and propagates. -/
def addAll : NFA → List TransRecord → NFA × Option NfaErr
  | nfa, [] => (nfa, none)
  | nfa, r :: rest =>
    match add_transition nfa r.from_state r.symbol r.to_states with
    | (nfa2, none) => addAll nfa2 rest
    | (nfa2, some e) => (nfa2, some e)

/-- `NFA.from_json`: rebuild the automaton from the document, re-adding
every transition through the validating mutator. -/
def from_json (data : NFAJson) : NFA × Option NfaErr :=
  addAll
    { states := data.states.toFinset
      alphabet := data.alphabet.toFinset
      transition_table := []
      start_state := data.start_state
      accept_states := data.accept_states.toFinset }
    data.transition_table

/-- Acceptance as the specification defines it (§4.5), stated as the
existence of a path: a state set is left by consuming the next input
symbol along a symbol-keyed transition, or without consuming input along
an epsilon-keyed transition, and an exhausted input in an accept state
accepts.  This is the spec-side definition that claim C1 compares with
the source's `run`. -/
inductive SpecAccepts (nfa : NFA) : Nat → List Char → Prop where
  | accept (q : Nat) : q ∈ nfa.accept_states → SpecAccepts nfa q []
  | step (q : Nat) (c : Char) (q2 : Nat) (w : List Char) :
      q2 ∈ tget nfa.transition_table (q, c) → c ≠ epsSymbol →
      SpecAccepts nfa q2 w → SpecAccepts nfa q (c :: w)
  | eps (q q2 : Nat) (w : List Char) :
      q2 ∈ tget nfa.transition_table (q, epsSymbol) →
      SpecAccepts nfa q2 w → SpecAccepts nfa q w

/-- One traversal step along a transition keyed by a declared alphabet
symbol: exactly the edges the source's `get_unreachable` follows. -/
def StepRel (nfa : NFA) (p q : Nat) : Prop :=
  ∃ c ∈ nfa.alphabet, q ∈ tget nfa.transition_table (p, c)

/-- Spec-side (§4.4): one step along any transition held in the table,
symbol-keyed or epsilon-keyed. -/
def AnyStepRel (nfa : NFA) (p q : Nat) : Prop :=
  ∃ c, q ∈ tget nfa.transition_table (p, c)

/-- The invariant of the data model (§3): no transition targets the
automaton's own start state. -/
def NoStartTarget (nfa : NFA) : Prop :=
  ∀ e ∈ nfa.transition_table, nfa.start_state ∉ e.2

/-- A well-formed automaton (§3): nonempty states, start among the states,
accepts among the states, table sources and targets among the states, and
no transition into the start state. -/
def WellFormed (nfa : NFA) : Prop :=
  nfa.states.Nonempty ∧ nfa.start_state ∈ nfa.states ∧
  nfa.accept_states ⊆ nfa.states ∧
  (∀ e ∈ nfa.transition_table, e.1.1 ∈ nfa.states ∧ e.2 ⊆ nfa.states) ∧
  NoStartTarget nfa

instance (nfa : NFA) : Decidable (NoStartTarget nfa) :=
  decidable_of_iff (∀ e ∈ nfa.transition_table, nfa.start_state ∉ e.2)
    (by rw [NoStartTarget])

instance (nfa : NFA) : Decidable (WellFormed nfa) :=
  decidable_of_iff
    (nfa.states.Nonempty ∧ nfa.start_state ∈ nfa.states ∧
      nfa.accept_states ⊆ nfa.states ∧
      (∀ e ∈ nfa.transition_table, e.1.1 ∈ nfa.states ∧ e.2 ⊆ nfa.states) ∧
      NoStartTarget nfa)
    (by rw [WellFormed])

/-- The union of all values a table holds under a key (used to relate a
rebuilt table to the original one). -/
def tgetAll : Table → (Nat × Char) → Finset Nat
  | [], _ => ∅
  | e :: t, k => if e.1 = k then e.2 ∪ tgetAll t k else tgetAll t k

/-- The first example automaton of `nfa_main.py`: states 1,2,3 over
alphabet a,b,c, start 1, accept 2, transitions 1-a-{2,3}, 2-b-{3},
3-c-{3}. -/
def exA : NFA :=
  { states := {1, 2, 3}
    alphabet := {'a', 'b', 'c'}
    transition_table := [((1, 'a'), {2, 3}), ((2, 'b'), {3}), ((3, 'c'), {3})]
    start_state := 1
    accept_states := {2} }

/-- The second example automaton of `nfa_main.py`: states 11,12 over
alphabet a,b,c, start 11, accept 12, transitions 11-a-{12}, 12-c-{12}. -/
def exB : NFA :=
  { states := {11, 12}
    alphabet := {'a', 'b', 'c'}
    transition_table := [((11, 'a'), {12}), ((12, 'c'), {12})]
    start_state := 11
    accept_states := {12} }

/-- A two-state automaton whose only transition is the epsilon edge from
the start state to the accepting state, the shape the composition
operators produce. -/
def exC : NFA :=
  { states := {0, 1}
    alphabet := {'a'}
    transition_table := [((0, epsSymbol), {1})]
    start_state := 0
    accept_states := {1} }

/-- Claim C10: on the empty input `run` answers exactly whether the start
state is an accept state; the transition table, and in particular any
epsilon transition leaving the start state, is never consulted. -/
theorem run_nil_iff_start_accept (nfa : NFA) :
    run nfa [] = decide (nfa.start_state ∈ nfa.accept_states)
    ∧ ∀ t : Table, run { nfa with transition_table := t } [] = run nfa [] :=
  ⟨rfl, fun _ => rfl⟩

/-- Claim C9 counterexample: `new_state` does not return the freshly
allocated identifier — the Python method has no return statement, so the
call evaluates to `None`, modelled as the `none` component here. -/
theorem new_state_returns_no_identifier : (new_state exA).2 = none := rfl

/-- Claim C9 (amended): `new_state` allocates the fresh identifier
`max(states) + 1`, which is strictly greater than every identifier already
in `states` and not previously present, and inserts it into `states`; the
new maximum is the allocated identifier, so a later allocation is strictly
greater (monotonic, no reuse); but the method returns no value. -/
theorem new_state_allocates_fresh_max (nfa : NFA) (_h : nfa.states.Nonempty) :
    (new_state nfa).2 = none
    ∧ maxState nfa.states + 1 ∉ nfa.states
    ∧ (∀ s ∈ nfa.states, s < maxState nfa.states + 1)
    ∧ (new_state nfa).1.states = insert (maxState nfa.states + 1) nfa.states
    ∧ maxState (new_state nfa).1.states = maxState nfa.states + 1 := by
  have hb : ∀ s ∈ nfa.states, s < maxState nfa.states + 1 := by
    intro s hs
    have h2 : id s ≤ nfa.states.sup id := Finset.le_sup hs
    simp only [id_eq] at h2
    simp only [maxState]
    omega
  refine ⟨rfl, ?_, hb, rfl, ?_⟩
  · intro hmem
    exact absurd (hb _ hmem) (by omega)
  · show maxState (insert (maxState nfa.states + 1) nfa.states) = maxState nfa.states + 1
    rw [maxState, Finset.sup_insert]
    simp only [id_eq, maxState]
    exact sup_eq_left.mpr (Nat.le_succ _)

/-- Claim C9 witness: the amended statement instantiated at the first
example automaton of `nfa_main.py`. -/
theorem new_state_allocates_fresh_max_witness :
    (new_state exA).2 = none
    ∧ maxState exA.states + 1 ∉ exA.states
    ∧ (∀ s ∈ exA.states, s < maxState exA.states + 1)
    ∧ (new_state exA).1.states = insert (maxState exA.states + 1) exA.states
    ∧ maxState (new_state exA).1.states = maxState exA.states + 1 :=
  new_state_allocates_fresh_max exA (by decide)

/-- Claim C1 (code bug): the specification's acceptance relation admits the
path 1 -a- 2 -eps- 11 -a- 12 -c- 12 through the concatenation of the two
example automata of `nfa_main.py` on input "aac", yet the source's `run`
rejects that input: `_run_helper` indexes the table only by the literal
next input symbol and never follows epsilon-keyed transitions. -/
theorem run_misses_epsilon_path :
    SpecAccepts (concatenation exA exB) (concatenation exA exB).start_state ['a', 'a', 'c']
    ∧ run (concatenation exA exB) ['a', 'a', 'c'] = false := by
  constructor
  · show SpecAccepts (concatenation exA exB) 1 ['a', 'a', 'c']
    exact SpecAccepts.step 1 'a' 2 ['a', 'c'] (by decide) (by decide)
      (SpecAccepts.eps 2 11 ['a', 'c'] (by decide)
        (SpecAccepts.step 11 'a' 12 ['c'] (by decide) (by decide)
          (SpecAccepts.step 12 'c' 12 [] (by decide) (by decide)
            (SpecAccepts.accept 12 (by decide)))))
  · decide

theorem checkTargets_eq_none_iff (nfa : NFA) (f : Nat) (ts : List Nat) :
    checkTargets nfa f ts = none ↔ ∀ s ∈ ts, s ∈ nfa.states ∧ s ≠ nfa.start_state := by
  induction ts with
  | nil => simp [checkTargets]
  | cons s rest ih =>
    rw [checkTargets]
    by_cases h1 : s ∈ nfa.states
    · rw [if_neg (not_not_intro h1)]
      by_cases h2 : s = nfa.start_state
      · rw [if_pos h2]
        simp [h2, h1]
      · rw [if_neg h2, ih]
        simp [h1, h2]
    · rw [if_pos h1]
      simp [h1]

theorem checkTargets_illegal_iff (nfa : NFA) (f : Nat) (ts : List Nat)
    (h : ∀ s ∈ ts, s ∈ nfa.states) :
    checkTargets nfa f ts = some (NfaErr.illegalStartTarget f nfa.start_state)
      ↔ ∃ s ∈ ts, s = nfa.start_state := by
  induction ts with
  | nil => simp [checkTargets]
  | cons s rest ih =>
    have hs : s ∈ nfa.states := h s (List.mem_cons_self s rest)
    rw [checkTargets, if_neg (not_not_intro hs)]
    by_cases h2 : s = nfa.start_state
    · rw [if_pos h2]
      simp [h2]
    · rw [if_neg h2, ih (fun x hx => h x (List.mem_cons_of_mem s hx))]
      constructor
      · rintro ⟨x, hx, hxs⟩
        exact ⟨x, List.mem_cons_of_mem s hx, hxs⟩
      · rintro ⟨x, hx, hxs⟩
        rcases List.mem_cons.mp hx with h3 | h3
        · rw [h3] at hxs
          exact absurd hxs h2
        · exact ⟨x, h3, hxs⟩

theorem checkTargets_unknown_iff (nfa : NFA) (f : Nat) (ts : List Nat)
    (h : ∀ s ∈ ts, s ≠ nfa.start_state) :
    (∃ s ∈ ts, s ∉ nfa.states)
      ↔ ∃ s, checkTargets nfa f ts = some (NfaErr.unknownState s)
          ∧ s ∈ ts ∧ s ∉ nfa.states := by
  induction ts with
  | nil => simp [checkTargets]
  | cons s rest ih =>
    rw [checkTargets]
    by_cases h1 : s ∈ nfa.states
    · rw [if_neg (not_not_intro h1), if_neg (h s (List.mem_cons_self s rest))]
      have ihr := ih (fun x hx => h x (List.mem_cons_of_mem s hx))
      constructor
      · rintro ⟨x, hx, hxs⟩
        rcases List.mem_cons.mp hx with h3 | h3
        · rw [h3] at hxs
          exact absurd h1 hxs
        · obtain ⟨y, hcy, hy, hys⟩ := ihr.mp ⟨x, h3, hxs⟩
          exact ⟨y, hcy, List.mem_cons_of_mem s hy, hys⟩
      · rintro ⟨x, hcx, hx, hxs⟩
        rcases List.mem_cons.mp hx with h3 | h3
        · rw [h3] at hxs
          exact absurd h1 hxs
        · exact ⟨x, List.mem_cons_of_mem s h3, hxs⟩
    · rw [if_pos h1]
      constructor
      · intro _
        exact ⟨s, rfl, List.mem_cons_self s rest, h1⟩
      · intro _
        exact ⟨s, List.mem_cons_self s rest, h1⟩

theorem add_transition_ok (nfa : NFA) (f : Nat) (c : Char) (ts : List Nat)
    (hc : c ∈ nfa.alphabet) (hf : f ∈ nfa.states)
    (hts : ∀ s ∈ ts, s ∈ nfa.states ∧ s ≠ nfa.start_state) :
    add_transition nfa f c ts
      = ({ nfa with transition_table := tupdate nfa.transition_table (f, c) ts.toFinset },
         none) := by
  rw [add_transition, if_neg (not_not_intro hc), if_neg (not_not_intro hf),
    (checkTargets_eq_none_iff nfa f ts).mpr hts]

/-- Claim C7: `add_transition` fails with `InvalidSymbol` exactly when the
symbol is not in the alphabet; with `UnknownState` when the source, or (no
target being the start state) some target, is not a known state; with
`IllegalStartTarget` when (all targets being known states) some target is
the start state; it succeeds exactly when none of these hold; and the call
is atomic — on any failure the automaton, in particular its transition
table, is left unchanged, while on success only the entry for
`(from_state, symbol)` is extended with the targets. -/
theorem add_transition_spec (nfa : NFA) (f : Nat) (c : Char) (ts : List Nat) :
    ((add_transition nfa f c ts).2 = some (NfaErr.invalidSymbol c) ↔ c ∉ nfa.alphabet)
    ∧ (c ∈ nfa.alphabet → f ∉ nfa.states →
        (add_transition nfa f c ts).2 = some (NfaErr.unknownState f))
    ∧ (c ∈ nfa.alphabet → f ∈ nfa.states → (∀ s ∈ ts, s ∈ nfa.states) →
        ((add_transition nfa f c ts).2
            = some (NfaErr.illegalStartTarget f nfa.start_state)
          ↔ ∃ s ∈ ts, s = nfa.start_state))
    ∧ (c ∈ nfa.alphabet → f ∈ nfa.states → (∀ s ∈ ts, s ≠ nfa.start_state) →
        ((∃ s ∈ ts, s ∉ nfa.states)
          ↔ ∃ s, (add_transition nfa f c ts).2 = some (NfaErr.unknownState s)
              ∧ s ∈ ts ∧ s ∉ nfa.states))
    ∧ ((add_transition nfa f c ts).2 = none
        ↔ c ∈ nfa.alphabet ∧ f ∈ nfa.states
            ∧ ∀ s ∈ ts, s ∈ nfa.states ∧ s ≠ nfa.start_state)
    ∧ (∀ e, (add_transition nfa f c ts).2 = some e → (add_transition nfa f c ts).1 = nfa)
    ∧ ((add_transition nfa f c ts).2 = none →
        (add_transition nfa f c ts).1
          = { nfa with transition_table := tupdate nfa.transition_table (f, c) ts.toFinset }) := by
  by_cases hc : c ∈ nfa.alphabet
  · by_cases hf : f ∈ nfa.states
    · cases hct : checkTargets nfa f ts with
      | none =>
        have hts := (checkTargets_eq_none_iff nfa f ts).mp hct
        have hA := add_transition_ok nfa f c ts hc hf hts
        refine ⟨?_, ?_, ?_, ?_, ?_, ?_, ?_⟩
        · simp [hA, hc]
        · intro _ hf2; exact absurd hf hf2
        · intro _ _ _
          simp only [hA]
          constructor
          · intro h; exact absurd h (by simp)
          · rintro ⟨s, hs, rfl⟩
            exact ((hts _ hs).2 rfl).elim
        · intro _ _ _
          constructor
          · rintro ⟨s, hs, hsn⟩
            exact absurd (hts s hs).1 hsn
          · rintro ⟨s, h2, _, hsn⟩
            rw [hA] at h2
            exact absurd h2 (by simp)
        · exact iff_of_true (by rw [hA]) ⟨hc, hf, hts⟩
        · intro e he
          rw [hA] at he
          exact absurd he (by simp)
        · intro _
          rw [hA]
      | some e =>
        have hA : add_transition nfa f c ts = (nfa, some e) := by
          rw [add_transition, if_neg (not_not_intro hc), if_neg (not_not_intro hf), hct]
        refine ⟨?_, ?_, ?_, ?_, ?_, ?_, ?_⟩
        · constructor
          · intro h
            rw [hA] at h
            have : e = NfaErr.invalidSymbol c := by simpa using h
            subst this
            exfalso
            clear hA h
            induction ts with
            | nil => simp [checkTargets] at hct
            | cons s rest ih =>
              rw [checkTargets] at hct
              by_cases h1 : s ∈ nfa.states
              · rw [if_neg (not_not_intro h1)] at hct
                by_cases h2 : s = nfa.start_state
                · rw [if_pos h2] at hct; simp at hct
                · rw [if_neg h2] at hct; exact ih hct
              · rw [if_pos h1] at hct; simp at hct
          · intro h; exact absurd hc h
        · intro _ hf2; exact absurd hf hf2
        · intro _ _ hts
          rw [hA, (checkTargets_illegal_iff nfa f ts hts).symm, hct]
        · intro _ _ hts
          rw [checkTargets_unknown_iff nfa f ts hts, hA, hct]
        · rw [hA]
          simp only [Option.some_ne_none, false_iff]
          intro hcon
          rw [(checkTargets_eq_none_iff nfa f ts).mpr hcon.2.2] at hct
          exact Option.noConfusion hct
        · intro e2 _
          rw [hA]
        · intro h
          rw [hA] at h
          exact absurd h (by simp)
    · have hA : add_transition nfa f c ts = (nfa, some (NfaErr.unknownState f)) := by
        rw [add_transition, if_neg (not_not_intro hc), if_pos hf]
      refine ⟨?_, ?_, ?_, ?_, ?_, ?_, ?_⟩
      · simp [hA, hc]
      · intro _ _; rw [hA]
      · intro _ hf2; exact absurd hf2 hf
      · intro _ hf2; exact absurd hf2 hf
      · simp [hA, hf]
      · intro e _; rw [hA]
      · intro h
        rw [hA] at h
        exact absurd h (by simp)
  · have hA : add_transition nfa f c ts = (nfa, some (NfaErr.invalidSymbol c)) := by
      rw [add_transition, if_pos hc]
    refine ⟨?_, ?_, ?_, ?_, ?_, ?_, ?_⟩
    · simp [hA, hc]
    · intro hc2; exact absurd hc2 hc
    · intro hc2; exact absurd hc2 hc
    · intro hc2; exact absurd hc2 hc
    · simp [hA, hc]
    · intro e _; rw [hA]
    · intro h
      rw [hA] at h
      exact absurd h (by simp)

/-- Claim C7 witness: at the first example automaton of `nfa_main.py`, an
undeclared symbol is rejected as `InvalidSymbol`, an unknown source as
`UnknownState`, a target equal to the start state as `IllegalStartTarget`
(each leaving the automaton unchanged), and a valid call succeeds. -/
theorem add_transition_spec_witness :
    (add_transition exA 1 'x' [2]).2 = some (NfaErr.invalidSymbol 'x')
    ∧ (add_transition exA 4 'a' [2]).2 = some (NfaErr.unknownState 4)
    ∧ ((add_transition exA 2 'a' [1]).2
        = some (NfaErr.illegalStartTarget 2 1))
    ∧ (add_transition exA 2 'a' [1]).1 = exA
    ∧ (add_transition exA 1 'b' [3]).2 = none := by
  refine ⟨?_, ?_, ?_, ?_, ?_⟩
  · exact (add_transition_spec exA 1 'x' [2]).1.mpr (by decide)
  · exact (add_transition_spec exA 4 'a' [2]).2.1 (by decide) (by decide)
  · exact ((add_transition_spec exA 2 'a' [1]).2.2.1 (by decide) (by decide)
      (by decide)).mpr ⟨1, by decide, rfl⟩
  · exact (add_transition_spec exA 2 'a' [1]).2.2.2.2.2.1 _
      (((add_transition_spec exA 2 'a' [1]).2.2.1 (by decide) (by decide)
        (by decide)).mpr ⟨1, by decide, rfl⟩)
  · exact (add_transition_spec exA 1 'b' [3]).2.2.2.2.1.mpr
      ⟨by decide, by decide, by decide⟩

/-- Claim C2 (code bug): the union automaton built by `alternative` is not
equivalent to the disjunction of its operands under the source's `run`:
the first example automaton accepts "a", but the union rejects "a" because
the only transition leaving the fresh start state is epsilon-keyed and
`run` never follows it. -/
theorem alternative_union_fails_under_run :
    run exA ['a'] = true ∧ run (alternative exA exB) ['a'] = false := by
  decide

/-- Claim C3 (code bug): the first example automaton accepts "a" and the
second accepts "ac", yet the concatenation built from them rejects
"a" ++ "ac" under the source's `run`, because the glue edges from the
accept states of the first operand to the start of the second are
epsilon-keyed and `run` never follows them. -/
theorem concatenation_split_fails_under_run :
    run exA ['a'] = true ∧ run exB ['a', 'c'] = true
    ∧ run (concatenation exA exB) (['a'] ++ ['a', 'c']) = false := by
  decide

theorem le_maxState {x : Nat} {s : Finset Nat} (h : x ∈ s) : x ≤ maxState s := by
  have h2 : id x ≤ s.sup id := Finset.le_sup h
  simpa [maxState] using h2

theorem tupdate_targets {P : Nat → Prop} (t : Table) (k : Nat × Char) (v : Finset Nat)
    (ht : ∀ e ∈ t, ∀ x ∈ e.2, P x) (hv : ∀ x ∈ v, P x) :
    ∀ e ∈ tupdate t k v, ∀ x ∈ e.2, P x := by
  intro e he x hx
  rw [tupdate] at he
  by_cases hm : tmem t k = true
  · rw [if_pos hm] at he
    obtain ⟨e0, he0, heq⟩ := List.mem_map.mp he
    by_cases h2 : e0.1 = k
    · rw [if_pos h2] at heq
      rw [← heq] at hx
      rcases Finset.mem_union.mp hx with h3 | h3
      · exact ht e0 he0 x h3
      · exact hv x h3
    · rw [if_neg h2] at heq
      rw [← heq] at hx
      exact ht e0 he0 x hx
  · rw [if_neg hm] at he
    rcases List.mem_append.mp he with h3 | h3
    · exact ht e h3 x hx
    · have he2 : e = (k, v) := by simpa using h3
      rw [he2] at hx
      exact hv x hx

theorem tset_targets {P : Nat → Prop} (t : Table) (k : Nat × Char) (v : Finset Nat)
    (ht : ∀ e ∈ t, ∀ x ∈ e.2, P x) (hv : ∀ x ∈ v, P x) :
    ∀ e ∈ tset t k v, ∀ x ∈ e.2, P x := by
  intro e he x hx
  rw [tset] at he
  by_cases hm : tmem t k = true
  · rw [if_pos hm] at he
    obtain ⟨e0, he0, heq⟩ := List.mem_map.mp he
    by_cases h2 : e0.1 = k
    · rw [if_pos h2] at heq
      rw [← heq] at hx
      exact hv x hx
    · rw [if_neg h2] at heq
      rw [← heq] at hx
      exact ht e0 he0 x hx
  · rw [if_neg hm] at he
    rcases List.mem_append.mp he with h3 | h3
    · exact ht e h3 x hx
    · have he2 : e = (k, v) := by simpa using h3
      rw [he2] at hx
      exact hv x hx

theorem foldl_tupdate_targets {P : Nat → Prop} :
    ∀ (l : Table) (t : Table), (∀ e ∈ t, ∀ x ∈ e.2, P x) →
      (∀ e ∈ l, ∀ x ∈ e.2, P x) →
      ∀ e ∈ l.foldl (fun acc e => tupdate acc e.1 e.2) t, ∀ x ∈ e.2, P x := by
  intro l
  induction l with
  | nil => intro t ht _; exact ht
  | cons e0 rest ih =>
    intro t ht hl
    rw [List.foldl_cons]
    exact ih (tupdate t e0.1 e0.2)
      (tupdate_targets t e0.1 e0.2 ht (hl e0 (List.mem_cons_self e0 rest)))
      (fun e2 he2 => hl e2 (List.mem_cons_of_mem e0 he2))

theorem tmerge_targets {P : Nat → Prop} (t1 t2 : Table)
    (h1 : ∀ e ∈ t1, ∀ x ∈ e.2, P x) (h2 : ∀ e ∈ t2, ∀ x ∈ e.2, P x) :
    ∀ e ∈ tmerge t1 t2, ∀ x ∈ e.2, P x :=
  foldl_tupdate_targets t2 t1 h1 h2

theorem foldl_epsupdate_targets {P : Nat → Prop} (b : Nat) (hb : P b) :
    ∀ (l : List Nat) (t : Table), (∀ e ∈ t, ∀ x ∈ e.2, P x) →
      ∀ e ∈ l.foldl (fun t a => tupdate t (a, epsSymbol) {b}) t, ∀ x ∈ e.2, P x := by
  intro l
  induction l with
  | nil => intro t ht; exact ht
  | cons a rest ih =>
    intro t ht
    rw [List.foldl_cons]
    exact ih (tupdate t (a, epsSymbol) {b})
      (tupdate_targets t (a, epsSymbol) {b} ht
        (fun x hx => by rw [Finset.mem_singleton.mp hx]; exact hb))

/-- Claim C8: each composition operator preserves the invariant that no
transition of the result targets the result's own start state, for
well-formed operands; concatenation additionally assumes (as the spec
records) that the operands' state sets are disjoint, since the source does
not renumber its second operand. -/
theorem composition_preserves_no_start_target (nfa1 nfa2 : NFA)
    (h1 : WellFormed nfa1) (h2 : WellFormed nfa2) :
    (Disjoint nfa1.states nfa2.states → NoStartTarget (concatenation nfa1 nfa2))
    ∧ NoStartTarget (alternative nfa1 nfa2)
    ∧ NoStartTarget (iteration nfa1) := by
  obtain ⟨hne1, hstart1, hacc1, htab1, hnost1⟩ := h1
  obtain ⟨hne2, hstart2, hacc2, htab2, hnost2⟩ := h2
  refine ⟨?_, ?_, ?_⟩
  · intro hdisj
    rw [NoStartTarget]
    have key : ∀ e ∈ (concatenation nfa1 nfa2).transition_table,
        ∀ x ∈ e.2, x ≠ nfa1.start_state := by
      show ∀ e ∈ (finsetToList nfa1.accept_states).foldl
          (fun t a => tupdate t (a, epsSymbol) {nfa2.start_state})
          (tmerge nfa1.transition_table nfa2.transition_table),
        ∀ x ∈ e.2, x ≠ nfa1.start_state
      refine foldl_epsupdate_targets nfa2.start_state ?_ _ _ ?_
      · intro hcon
        rw [hcon] at hstart2
        exact Finset.disjoint_left.mp hdisj hstart1 hstart2
      · refine tmerge_targets _ _ ?_ ?_
        · intro e he x hx hcon
          rw [hcon] at hx
          exact hnost1 e he hx
        · intro e he x hx hcon
          have hxs : x ∈ nfa2.states := (htab2 e he).2 hx
          rw [hcon] at hxs
          exact Finset.disjoint_left.mp hdisj hstart1 hxs
    intro e he hmem
    exact key e he _ hmem rfl
  · rw [NoStartTarget]
    have hoff : maxState nfa1.states + 1
        ≤ maxState ((get_with_offset nfa2 (maxState nfa1.states + 1)).states) := by
      obtain ⟨y, hy⟩ := hne2
      have hmem : y + (maxState nfa1.states + 1)
          ∈ (get_with_offset nfa2 (maxState nfa1.states + 1)).states :=
        Finset.mem_image_of_mem _ hy
      have := le_maxState hmem
      omega
    have key : ∀ e ∈ (alternative nfa1 nfa2).transition_table,
        ∀ x ∈ e.2,
          x < maxState ((get_with_offset nfa2 (maxState nfa1.states + 1)).states) + 1 := by
      show ∀ e ∈ tset
          (tmerge nfa1.transition_table
            (get_with_offset nfa2 (maxState nfa1.states + 1)).transition_table)
          (maxState ((get_with_offset nfa2 (maxState nfa1.states + 1)).states) + 1, epsSymbol)
          {nfa1.start_state, (get_with_offset nfa2 (maxState nfa1.states + 1)).start_state},
        ∀ x ∈ e.2,
          x < maxState ((get_with_offset nfa2 (maxState nfa1.states + 1)).states) + 1
      refine tset_targets _ _ _ ?_ ?_
      · refine tmerge_targets _ _ ?_ ?_
        · intro e he x hx
          have := le_maxState ((htab1 e he).2 hx)
          omega
        · intro e he x hx
          obtain ⟨e0, he0, heq⟩ := List.mem_map.mp he
          rw [← heq] at hx
          obtain ⟨y, hy, rfl⟩ := Finset.mem_image.mp hx
          have hys : y + (maxState nfa1.states + 1)
              ∈ (get_with_offset nfa2 (maxState nfa1.states + 1)).states :=
            Finset.mem_image_of_mem _ ((htab2 e0 he0).2 hy)
          have := le_maxState hys
          omega
      · intro x hx
        rcases Finset.mem_insert.mp hx with h3 | h3
        · have := le_maxState hstart1
          omega
        · rw [Finset.mem_singleton.mp h3]
          have hys : nfa2.start_state + (maxState nfa1.states + 1)
              ∈ (get_with_offset nfa2 (maxState nfa1.states + 1)).states :=
            Finset.mem_image_of_mem _ hstart2
          have := le_maxState hys
          show nfa2.start_state + (maxState nfa1.states + 1) < _
          omega
    intro e he hmem
    exact absurd rfl (Nat.ne_of_lt (key e he _ hmem)).symm
  · rw [NoStartTarget]
    have key : ∀ e ∈ (iteration nfa1).transition_table,
        ∀ x ∈ e.2, x < maxState nfa1.states + 1 := by
      show ∀ e ∈ (finsetToList nfa1.accept_states).foldl
          (fun t a => tupdate t (a, epsSymbol) {nfa1.start_state})
          (tset nfa1.transition_table (maxState nfa1.states + 1, epsSymbol)
            {nfa1.start_state}),
        ∀ x ∈ e.2, x < maxState nfa1.states + 1
      have hstartlt : nfa1.start_state < maxState nfa1.states + 1 := by
        have := le_maxState hstart1
        omega
      refine foldl_epsupdate_targets nfa1.start_state ?_ _ _ ?_
      · exact hstartlt
      refine tset_targets _ _ _ ?_ ?_
      · intro e he x hx
        have := le_maxState ((htab1 e he).2 hx)
        omega
      · intro x hx
        rw [Finset.mem_singleton.mp hx]
        exact hstartlt
    intro e he hmem
    exact absurd rfl (Nat.ne_of_lt (key e he _ hmem)).symm

/-- Claim C8 witness: the invariant holds concretely for the three
operators applied to the example automata of `nfa_main.py`, which are
well-formed and disjoint. -/
theorem composition_preserves_no_start_target_witness :
    NoStartTarget (concatenation exA exB)
    ∧ NoStartTarget (alternative exA exB)
    ∧ NoStartTarget (iteration exA) :=
  ⟨(composition_preserves_no_start_target exA exB (by decide) (by decide)).1 (by decide),
   (composition_preserves_no_start_target exA exB (by decide) (by decide)).2.1,
   (composition_preserves_no_start_target exA exB (by decide) (by decide)).2.2⟩

theorem mem_finsetToList {a : Nat} {s : Finset Nat} : a ∈ finsetToList s ↔ a ∈ s := by
  rw [finsetToList, List.mem_filter, List.mem_range]
  constructor
  · intro h
    exact of_decide_eq_true h.2
  · intro h
    refine ⟨?_, decide_eq_true h⟩
    have h2 : id a ≤ s.sup id := Finset.le_sup h
    simp only [id_eq] at h2
    simp only [maxState]
    omega

theorem mem_stepTargets {nfa : NFA} {s t : Nat} :
    t ∈ stepTargets nfa s ↔ StepRel nfa s t := by
  rw [stepTargets, Finset.mem_sup, StepRel]

theorem bfsAux_subset (nfa : NFA) :
    ∀ (reach : Finset Nat) (bd : List Nat), reach ⊆ bfsAux nfa reach bd := by
  intro reach bd
  induction reach, bd using bfsAux.induct nfa with
  | case1 reach =>
    rw [bfsAux]
  | case2 reach s rest ih =>
    rw [bfsAux]
    exact fun x hx => ih (Finset.mem_union_left _ hx)

theorem bfsAux_sound (nfa : NFA) (P : Nat → Prop)
    (hP : ∀ a b, P a → b ∈ stepTargets nfa a → P b) :
    ∀ (reach : Finset Nat) (bd : List Nat),
      (∀ x ∈ reach, P x) → (∀ x ∈ bd, x ∈ reach) →
      ∀ x ∈ bfsAux nfa reach bd, P x := by
  intro reach bd
  induction reach, bd using bfsAux.induct nfa with
  | case1 reach =>
    intro hreach _
    rw [bfsAux]
    exact hreach
  | case2 reach s rest ih =>
    intro hreach hbd
    rw [bfsAux]
    have hPs : P s := hreach s (hbd s (List.mem_cons_self s rest))
    refine ih ?_ ?_
    · intro x hx
      rcases Finset.mem_union.mp hx with h3 | h3
      · exact hreach x h3
      · exact hP s x hPs (Finset.mem_filter.mp h3).1
    · intro x hx
      rcases List.mem_append.mp hx with h3 | h3
      · exact Finset.mem_union_left _ (hbd x (List.mem_cons_of_mem s h3))
      · exact Finset.mem_union_right _ (mem_finsetToList.mp h3)

theorem bfsAux_closed (nfa : NFA) :
    ∀ (reach : Finset Nat) (bd : List Nat),
      (∀ x ∈ reach, x ∉ bd → ∀ t ∈ stepTargets nfa x, t ∈ reach) →
      ∀ x ∈ bfsAux nfa reach bd, ∀ t ∈ stepTargets nfa x, t ∈ bfsAux nfa reach bd := by
  intro reach bd
  induction reach, bd using bfsAux.induct nfa with
  | case1 reach =>
    intro hinv
    rw [bfsAux]
    exact fun x hx t ht => hinv x hx (List.not_mem_nil x) t ht
  | case2 reach s rest ih =>
    intro hinv
    rw [bfsAux]
    refine ih ?_
    intro x hx hnx t ht
    rcases Finset.mem_union.mp hx with hxr | hxn
    · by_cases hxs : x = s
      · subst hxs
        by_cases htr : t ∈ reach
        · exact Finset.mem_union_left _ htr
        · exact Finset.mem_union_right _ (Finset.mem_filter.mpr ⟨ht, htr⟩)
      · have hxrest : x ∉ rest := fun hc => hnx (List.mem_append_left _ hc)
        have hxbd : x ∉ s :: rest := by
          intro hc
          rcases List.mem_cons.mp hc with h3 | h3
          · exact hxs h3
          · exact hxrest h3
        exact Finset.mem_union_left _ (hinv x hxr hxbd t ht)
    · exact absurd (List.mem_append_right _ (mem_finsetToList.mpr hxn)) hnx

theorem start_mem_reachableStates (nfa : NFA) :
    nfa.start_state ∈ reachableStates nfa :=
  bfsAux_subset nfa {nfa.start_state} [nfa.start_state] (Finset.mem_singleton_self _)

theorem reachableStates_closed (nfa : NFA) {q t : Nat}
    (hq : q ∈ reachableStates nfa) (ht : t ∈ stepTargets nfa q) :
    t ∈ reachableStates nfa := by
  refine bfsAux_closed nfa {nfa.start_state} [nfa.start_state] ?_ q hq t ht
  intro x hx hnx
  rw [Finset.mem_singleton] at hx
  subst hx
  exact absurd (List.mem_singleton_self _) hnx

theorem mem_reachableStates_iff (nfa : NFA) (q : Nat) :
    q ∈ reachableStates nfa
      ↔ Relation.ReflTransGen (StepRel nfa) nfa.start_state q := by
  constructor
  · intro hq
    refine bfsAux_sound nfa (Relation.ReflTransGen (StepRel nfa) nfa.start_state)
      (fun a b ha hb => Relation.ReflTransGen.tail ha (mem_stepTargets.mp hb))
      {nfa.start_state} [nfa.start_state] ?_ ?_ q hq
    · intro x hx
      rw [Finset.mem_singleton] at hx
      subst hx
      exact Relation.ReflTransGen.refl
    · intro x hx
      rw [List.mem_singleton] at hx
      subst hx
      exact Finset.mem_singleton_self _
  · intro h
    induction h with
    | refl => exact start_mem_reachableStates nfa
    | tail h1 h2 ih => exact reachableStates_closed nfa ih (mem_stepTargets.mpr h2)

theorem mem_get_unreachable (nfa : NFA) (q : Nat) :
    q ∈ get_unreachable nfa
      ↔ q ∈ nfa.states ∧ ¬ Relation.ReflTransGen (StepRel nfa) nfa.start_state q := by
  rw [get_unreachable, Finset.mem_sdiff, mem_reachableStates_iff]

/-- Claim C5 (amended): the traversal of `get_unreachable` follows only
transitions keyed by symbols of the declared alphabet — never the
epsilon-keyed entries — so it returns exactly the declared states that are
not reachable from the start state through alphabet-symbol transitions; a
state reachable only through epsilon edges IS reported as unreachable. -/
theorem get_unreachable_eq_states_minus_reachable (nfa : NFA) (q : Nat) :
    q ∈ get_unreachable nfa
      ↔ q ∈ nfa.states ∧ ¬ Relation.ReflTransGen (StepRel nfa) nfa.start_state q :=
  mem_get_unreachable nfa q

theorem exC_no_step : ∀ p b : Nat, ¬ StepRel exC p b := by
  rintro p b ⟨c, hc, hb⟩
  have hc2 : c = 'a' := by
    have : c ∈ ({'a'} : Finset Char) := hc
    simpa using this
  subst hc2
  revert hb
  simp [exC, tget, Prod.mk.injEq, show ¬ epsSymbol = 'a' from by decide]

theorem get_unreachable_exC : get_unreachable exC = {1} := by
  ext q
  rw [mem_get_unreachable]
  constructor
  · rintro ⟨hq, hnr⟩
    have hq2 : q = 0 ∨ q = 1 := by
      have : q ∈ ({0, 1} : Finset Nat) := hq
      simpa using this
    rcases hq2 with rfl | rfl
    · exact absurd Relation.ReflTransGen.refl hnr
    · exact Finset.mem_singleton_self 1
  · intro hq
    rw [Finset.mem_singleton] at hq
    subst hq
    refine ⟨by decide, ?_⟩
    intro h
    rcases Relation.ReflTransGen.cases_head h with heq | ⟨b, hstep, _⟩
    · exact absurd heq (by decide)
    · exact exC_no_step _ _ hstep

/-- Claim C5 counterexample: in the epsilon-edge automaton, state 1 is
reachable from the start state by a transition held in the table (the
epsilon edge), yet `get_unreachable` reports it as unreachable, because
the traversal iterates over the declared alphabet only. -/
theorem get_unreachable_misses_eps_reachable :
    Relation.ReflTransGen (AnyStepRel exC) exC.start_state 1
    ∧ 1 ∈ get_unreachable exC := by
  constructor
  · exact Relation.ReflTransGen.single ⟨epsSymbol, by decide⟩
  · rw [get_unreachable_exC]
    exact Finset.mem_singleton_self 1

theorem tget_filter_keep (t : Table) (p : (Nat × Char) × Finset Nat → Bool)
    (k : Nat × Char) (hp : ∀ v, p (k, v) = true) :
    tget (t.filter p) k = tget t k := by
  induction t with
  | nil => rfl
  | cons e t ih =>
    by_cases hk : e.1 = k
    · have hpe : p e = true := by
        have he2 : e = (k, e.2) := by rw [← hk]
        rw [he2]
        exact hp e.2
      rw [List.filter_cons_of_pos hpe, tget, if_pos hk, tget, if_pos hk]
    · rw [tget, if_neg hk]
      cases hpe : p e with
      | true => rw [List.filter_cons_of_pos hpe, tget, if_neg hk, ih]
      | false => rw [List.filter_cons_of_neg (by rw [hpe]; exact Bool.false_ne_true), ih]

theorem runHelper_remove_unreachable (nfa : NFA) :
    ∀ (input : List Char) (q : Nat), q ∈ reachableStates nfa →
      (∀ c ∈ input, c ∈ nfa.alphabet) →
      runHelper (remove_unreachable nfa) q input = runHelper nfa q input := by
  intro input
  induction input with
  | nil =>
    intro q hq _
    show decide (q ∈ (remove_unreachable nfa).accept_states)
      = decide (q ∈ nfa.accept_states)
    have hq2 : q ∉ get_unreachable nfa := by
      rw [get_unreachable, Finset.mem_sdiff]
      intro h3
      exact h3.2 hq
    apply decide_eq_decide.mpr
    show q ∈ nfa.accept_states \ get_unreachable nfa ↔ q ∈ nfa.accept_states
    rw [Finset.mem_sdiff]
    exact ⟨fun h3 => h3.1, fun h3 => ⟨h3, hq2⟩⟩
  | cons c rest ih =>
    intro q hq hc
    have hq2 : q ∉ get_unreachable nfa := by
      rw [get_unreachable, Finset.mem_sdiff]
      intro h3
      exact h3.2 hq
    have htg : tget (remove_unreachable nfa).transition_table (q, c)
        = tget nfa.transition_table (q, c) := by
      show tget (nfa.transition_table.filter
        (fun e => decide (e.1.1 ∉ get_unreachable nfa))) (q, c) = _
      exact tget_filter_keep _ _ _ (fun v => decide_eq_true hq2)
    have hstep : ∀ s ∈ tget nfa.transition_table (q, c), s ∈ reachableStates nfa := by
      intro s hs
      exact reachableStates_closed nfa hq
        (mem_stepTargets.mpr ⟨c, hc c (List.mem_cons_self c rest), hs⟩)
    show decide (∃ s ∈ tget (remove_unreachable nfa).transition_table (q, c),
        runHelper (remove_unreachable nfa) s rest = true)
      = decide (∃ s ∈ tget nfa.transition_table (q, c), runHelper nfa s rest = true)
    rw [htg]
    apply decide_eq_decide.mpr
    constructor
    · rintro ⟨s, hs, hrun⟩
      refine ⟨s, hs, ?_⟩
      rw [← ih s (hstep s hs) (fun c2 h3 => hc c2 (List.mem_cons_of_mem c h3))]
      exact hrun
    · rintro ⟨s, hs, hrun⟩
      refine ⟨s, hs, ?_⟩
      rw [ih s (hstep s hs) (fun c2 h3 => hc c2 (List.mem_cons_of_mem c h3))]
      exact hrun

/-- Claim C4 (amended): pruning unreachable states never changes the
verdict of `run` on inputs drawn from the declared alphabet.  (The
restriction is forced: `get_unreachable` does not follow epsilon-keyed
transitions while `run` does follow a table entry keyed by the literal NUL
character when the input contains it, see the counterexample.) -/
theorem remove_unreachable_preserves_run (nfa : NFA) (input : List Char)
    (h : ∀ c ∈ input, c ∈ nfa.alphabet) :
    run (remove_unreachable nfa) input = run nfa input := by
  rw [run, run]
  exact runHelper_remove_unreachable nfa input nfa.start_state
    (start_mem_reachableStates nfa) h

/-- Claim C4 witness: pruning the first example automaton of `nfa_main.py`
leaves the verdict on "ab" unchanged. -/
theorem remove_unreachable_preserves_run_witness :
    run (remove_unreachable exA) ['a', 'b'] = run exA ['a', 'b'] :=
  remove_unreachable_preserves_run exA ['a', 'b'] (by decide)

theorem tget_eq_empty_of_not_tmem :
    ∀ (t : Table) (k : Nat × Char), tmem t k = false → tget t k = ∅ := by
  intro t
  induction t with
  | nil => intro k _; rfl
  | cons e t ih =>
    intro k hm
    rw [tmem] at hm
    rcases Bool.or_eq_false_iff.mp hm with ⟨h1, h2⟩
    rw [tget, if_neg (of_decide_eq_false h1)]
    exact ih k h2

theorem tget_map_update_ne (t : Table) (k kq : Nat × Char) (v : Finset Nat)
    (h : kq ≠ k) :
    tget (t.map (fun e => if e.1 = k then (e.1, e.2 ∪ v) else e)) kq = tget t kq := by
  induction t with
  | nil => rfl
  | cons e t ih =>
    rw [List.map_cons]
    by_cases h1 : e.1 = k
    · by_cases h2 : e.1 = kq
      · exact absurd (h2.symm.trans h1) h
      · rw [if_pos h1, tget, if_neg h2, tget, if_neg h2, ih]
    · by_cases h2 : e.1 = kq
      · rw [if_neg h1, tget, if_pos h2, tget, if_pos h2]
      · rw [if_neg h1, tget, if_neg h2, tget, if_neg h2, ih]

theorem tget_map_update_self (t : Table) (k : Nat × Char) (v : Finset Nat)
    (hm : tmem t k = true) :
    tget (t.map (fun e => if e.1 = k then (e.1, e.2 ∪ v) else e)) k
      = tget t k ∪ v := by
  induction t with
  | nil => rw [tmem] at hm; exact absurd hm Bool.false_ne_true
  | cons e t ih =>
    rw [List.map_cons]
    by_cases h1 : e.1 = k
    · rw [if_pos h1, tget, if_pos h1, tget, if_pos h1]
    · rw [if_neg h1, tget, if_neg h1, tget, if_neg h1]
      apply ih
      rw [tmem] at hm
      rcases Bool.or_eq_true_iff.mp hm with h2 | h2
      · exact absurd (of_decide_eq_true h2) h1
      · exact h2

theorem tget_append (t1 t2 : Table) (k : Nat × Char) :
    tget (t1 ++ t2) k = if tmem t1 k = true then tget t1 k else tget t2 k := by
  induction t1 with
  | nil =>
    rw [List.nil_append, if_neg (by rw [tmem]; exact Bool.false_ne_true)]
  | cons e t ih =>
    rw [List.cons_append, tget]
    by_cases h1 : e.1 = k
    · rw [if_pos h1, if_pos (by rw [tmem]; simp [h1]), tget, if_pos h1]
    · have hmm : tmem (e :: t) k = tmem t k := by rw [tmem]; simp [h1]
      rw [if_neg h1, ih, hmm, tget, if_neg h1]

theorem tget_tupdate (t : Table) (k kq : Nat × Char) (v : Finset Nat) :
    tget (tupdate t k v) kq = if kq = k then tget t k ∪ v else tget t kq := by
  rw [tupdate]
  by_cases hm : tmem t k = true
  · rw [if_pos hm]
    by_cases h : kq = k
    · rw [if_pos h, h, tget_map_update_self t k v hm]
    · rw [if_neg h, tget_map_update_ne t k kq v h]
  · have hm2 : tmem t k = false := Bool.not_eq_true _ ▸ eq_false_of_ne_true hm
    rw [if_neg hm, tget_append]
    by_cases h : kq = k
    · subst h
      rw [if_neg hm, if_pos rfl, tget, if_pos rfl, tget_eq_empty_of_not_tmem t kq hm2]
      exact (Finset.empty_union v).symm
    · rw [if_neg h]
      by_cases hmq : tmem t kq = true
      · rw [if_pos hmq]
      · rw [if_neg hmq, tget, if_neg (fun hc => h hc.symm), tget,
          tget_eq_empty_of_not_tmem t kq (Bool.not_eq_true _ ▸ eq_false_of_ne_true hmq)]

theorem tget_foldl_tupdate :
    ∀ (es : Table) (acc : Table) (k : Nat × Char),
      tget (es.foldl (fun t e => tupdate t e.1 e.2) acc) k
        = tget acc k ∪ tgetAll es k := by
  intro es
  induction es with
  | nil =>
    intro acc k
    rw [List.foldl_nil, tgetAll]
    exact (Finset.union_empty _).symm
  | cons e rest ih =>
    intro acc k
    rw [List.foldl_cons, ih, tget_tupdate, tgetAll]
    by_cases h : k = e.1
    · rw [if_pos h, if_pos h.symm, ← h]
      ext x
      simp only [Finset.mem_union]
      tauto
    · rw [if_neg h, if_neg (fun hc => h hc.symm)]

theorem tgetAll_eq_empty_of_not_mem_keys :
    ∀ (es : Table) (k : Nat × Char), k ∉ es.map (fun e => e.1) → tgetAll es k = ∅ := by
  intro es
  induction es with
  | nil => intro k _; rfl
  | cons e rest ih =>
    intro k hk
    rw [List.map_cons] at hk
    rw [tgetAll, if_neg (by intro hc; rw [← hc] at hk; exact hk (List.mem_cons_self _ _))]
    exact ih k (fun hc => hk (List.mem_cons_of_mem _ hc))

theorem tgetAll_eq_tget_of_nodup :
    ∀ (es : Table), (es.map (fun e => e.1)).Nodup → ∀ k, tgetAll es k = tget es k := by
  intro es
  induction es with
  | nil => intro _ k; rfl
  | cons e rest ih =>
    intro hnd k
    rw [List.map_cons, List.nodup_cons] at hnd
    rw [tgetAll, tget]
    by_cases h : e.1 = k
    · rw [if_pos h, if_pos h,
        tgetAll_eq_empty_of_not_mem_keys rest k (by rw [← h]; exact hnd.1)]
      exact Finset.union_empty e.2
    · rw [if_neg h, if_neg h]
      exact ih hnd.2 k

theorem finsetToList_toFinset (s : Finset Nat) : (finsetToList s).toFinset = s := by
  ext a
  rw [List.mem_toFinset, mem_finsetToList]

theorem mem_charFinsetToList {c : Char} {s : Finset Char} :
    c ∈ charFinsetToList s ↔ c ∈ s := by
  rw [charFinsetToList]
  constructor
  · intro h
    obtain ⟨n, hn, rfl⟩ := List.mem_map.mp h
    exact of_decide_eq_true (List.mem_filter.mp hn).2
  · intro h
    refine List.mem_map.mpr ⟨c.toNat, List.mem_filter.mpr ⟨?_, ?_⟩, Char.ofNat_toNat c⟩
    · rw [List.mem_range]
      have h2 : Char.toNat c ≤ s.sup Char.toNat := Finset.le_sup h
      omega
    · rw [Char.ofNat_toNat]
      exact decide_eq_true h

theorem charFinsetToList_toFinset (s : Finset Char) :
    (charFinsetToList s).toFinset = s := by
  ext a
  rw [List.mem_toFinset, mem_charFinsetToList]

theorem addAll_ok :
    ∀ (records : List TransRecord) (nfa : NFA),
      (∀ r ∈ records, r.symbol ∈ nfa.alphabet ∧ r.from_state ∈ nfa.states
        ∧ ∀ s ∈ r.to_states, s ∈ nfa.states ∧ s ≠ nfa.start_state) →
      (addAll nfa records).2 = none
      ∧ (addAll nfa records).1.states = nfa.states
      ∧ (addAll nfa records).1.alphabet = nfa.alphabet
      ∧ (addAll nfa records).1.start_state = nfa.start_state
      ∧ (addAll nfa records).1.accept_states = nfa.accept_states
      ∧ (addAll nfa records).1.transition_table
          = records.foldl
              (fun t r => tupdate t (r.from_state, r.symbol) r.to_states.toFinset)
              nfa.transition_table := by
  intro records
  induction records with
  | nil => intro nfa _; exact ⟨rfl, rfl, rfl, rfl, rfl, rfl⟩
  | cons r rest ih =>
    intro nfa h
    have hr := h r (List.mem_cons_self r rest)
    have hA := add_transition_ok nfa r.from_state r.symbol r.to_states hr.1 hr.2.1 hr.2.2
    rw [addAll, hA]
    exact ih
      { nfa with transition_table :=
          tupdate nfa.transition_table (r.from_state, r.symbol) r.to_states.toFinset }
      (fun r2 h2 => h r2 (List.mem_cons_of_mem r h2))

theorem addAll_illegal :
    ∀ (records : List TransRecord) (nfa : NFA),
      (∀ r ∈ records, r.symbol ∈ nfa.alphabet ∧ r.from_state ∈ nfa.states
        ∧ ∀ s ∈ r.to_states, s ∈ nfa.states) →
      (∃ r ∈ records, nfa.start_state ∈ r.to_states) →
      ∃ f, (addAll nfa records).2
        = some (NfaErr.illegalStartTarget f nfa.start_state) := by
  intro records
  induction records with
  | nil =>
    rintro nfa _ ⟨r, hr, _⟩
    exact absurd hr (List.not_mem_nil r)
  | cons r rest ih =>
    rintro nfa h hex
    have hr := h r (List.mem_cons_self r rest)
    by_cases hst : nfa.start_state ∈ r.to_states
    · have hct : checkTargets nfa r.from_state r.to_states
          = some (NfaErr.illegalStartTarget r.from_state nfa.start_state) :=
        (checkTargets_illegal_iff nfa r.from_state r.to_states hr.2.2).mpr
          ⟨nfa.start_state, hst, rfl⟩
      have hA : add_transition nfa r.from_state r.symbol r.to_states
          = (nfa, some (NfaErr.illegalStartTarget r.from_state nfa.start_state)) := by
        rw [add_transition, if_neg (not_not_intro hr.1),
          if_neg (not_not_intro hr.2.1), hct]
      refine ⟨r.from_state, ?_⟩
      rw [addAll, hA]
    · have hA := add_transition_ok nfa r.from_state r.symbol r.to_states hr.1 hr.2.1
        (fun s hs => ⟨hr.2.2 s hs, fun hc => hst (hc ▸ hs)⟩)
      rw [addAll, hA]
      refine ih _ (fun r2 h2 => h r2 (List.mem_cons_of_mem r h2)) ?_
      rcases hex with ⟨r2, hr2, hst2⟩
      rcases List.mem_cons.mp hr2 with h3 | h3
      · rw [h3] at hst2
        exact absurd hst2 hst
      · exact ⟨r2, h3, hst2⟩

/-- Claim C6 (amended): serializing and deserializing reconstructs the
automaton — identical states, alphabet, start and accept states, and a
transition relation with set-equal targets per (source, symbol) key — for
every automaton whose transitions would pass the mutator's checks (every
transition symbol declared in the alphabet, in particular no epsilon
entries; known sources and targets; no target equal to the start state;
one table entry per key); and deserialization applies the mutator's
checks, so any document with a transition into its start state (its other
records being valid) fails with the `IllegalStartTarget` error.  The
restriction to automata without epsilon entries is forced: the
counterexample shows the round trip fails on any composition output. -/
theorem from_json_to_json_roundtrip :
    (∀ nfa : NFA,
      (∀ e ∈ nfa.transition_table,
        e.1.2 ∈ nfa.alphabet ∧ e.1.1 ∈ nfa.states ∧ e.2 ⊆ nfa.states
          ∧ nfa.start_state ∉ e.2) →
      (nfa.transition_table.map (fun e => e.1)).Nodup →
      (from_json (to_json nfa)).2 = none
      ∧ (from_json (to_json nfa)).1.states = nfa.states
      ∧ (from_json (to_json nfa)).1.alphabet = nfa.alphabet
      ∧ (from_json (to_json nfa)).1.start_state = nfa.start_state
      ∧ (from_json (to_json nfa)).1.accept_states = nfa.accept_states
      ∧ ∀ k, tget (from_json (to_json nfa)).1.transition_table k
          = tget nfa.transition_table k)
    ∧ (∀ data : NFAJson,
      (∀ r ∈ data.transition_table, r.symbol ∈ data.alphabet.toFinset
        ∧ r.from_state ∈ data.states.toFinset
        ∧ ∀ s ∈ r.to_states, s ∈ data.states.toFinset) →
      (∃ r ∈ data.transition_table, data.start_state ∈ r.to_states) →
      ∃ f, (from_json data).2
        = some (NfaErr.illegalStartTarget f data.start_state)) := by
  constructor
  · intro nfa htab hnd
    have hcond : ∀ r ∈ (to_json nfa).transition_table,
        r.symbol ∈ (charFinsetToList nfa.alphabet).toFinset
        ∧ r.from_state ∈ (finsetToList nfa.states).toFinset
        ∧ ∀ s ∈ r.to_states,
            s ∈ (finsetToList nfa.states).toFinset ∧ s ≠ nfa.start_state := by
      intro r hr
      obtain ⟨e, he, rfl⟩ := List.mem_map.mp hr
      obtain ⟨hsym, hsrc, hsub, hnost⟩ := htab e he
      refine ⟨?_, ?_, ?_⟩
      · rw [charFinsetToList_toFinset]
        exact hsym
      · rw [finsetToList_toFinset]
        exact hsrc
      · intro s hs
        have hs2 : s ∈ e.2 := mem_finsetToList.mp hs
        refine ⟨?_, fun hc => hnost (hc ▸ hs2)⟩
        rw [finsetToList_toFinset]
        exact hsub hs2
    have h0 := addAll_ok (to_json nfa).transition_table
      { states := (to_json nfa).states.toFinset
        alphabet := (to_json nfa).alphabet.toFinset
        transition_table := []
        start_state := (to_json nfa).start_state
        accept_states := (to_json nfa).accept_states.toFinset } hcond
    refine ⟨h0.1, h0.2.1.trans (finsetToList_toFinset nfa.states),
      h0.2.2.1.trans (charFinsetToList_toFinset nfa.alphabet),
      h0.2.2.2.1,
      h0.2.2.2.2.1.trans (finsetToList_toFinset nfa.accept_states), ?_⟩
    intro k
    have h6 : (from_json (to_json nfa)).1.transition_table
        = (to_json nfa).transition_table.foldl
            (fun t r => tupdate t (r.from_state, r.symbol) r.to_states.toFinset) [] :=
      h0.2.2.2.2.2
    rw [h6]
    show tget ((nfa.transition_table.map
      (fun e => (⟨e.1.1, e.1.2, finsetToList e.2⟩ : TransRecord))).foldl
        (fun t r => tupdate t (r.from_state, r.symbol) r.to_states.toFinset) []) k
      = tget nfa.transition_table k
    rw [List.foldl_map]
    rw [List.foldl_ext
      (fun (t : Table) (e : (Nat × Char) × Finset Nat) =>
        tupdate t (e.1.1, e.1.2) (finsetToList e.2).toFinset)
      (fun (t : Table) (e : (Nat × Char) × Finset Nat) => tupdate t e.1 e.2)
      []
      (fun t e _ => by
        show tupdate t (e.1.1, e.1.2) (finsetToList e.2).toFinset = tupdate t e.1 e.2
        rw [finsetToList_toFinset, Prod.mk.eta])]
    rw [tget_foldl_tupdate, tgetAll_eq_tget_of_nodup nfa.transition_table hnd k]
    show ∅ ∪ tget nfa.transition_table k = tget nfa.transition_table k
    exact Finset.empty_union _
  · intro data hval hex
    exact addAll_illegal data.transition_table
      { states := data.states.toFinset
        alphabet := data.alphabet.toFinset
        transition_table := []
        start_state := data.start_state
        accept_states := data.accept_states.toFinset } hval hex

/-- Claim C6 witness: the round trip succeeds and reconstructs the first
example automaton of `nfa_main.py`, and a document whose one transition
targets its start state is rejected with `IllegalStartTarget`. -/
theorem from_json_to_json_roundtrip_witness :
    (from_json (to_json exA)).2 = none
    ∧ (from_json (to_json exA)).1.states = exA.states
    ∧ (∃ f, (from_json (NFAJson.mk [1, 2] ['a'] [TransRecord.mk 2 'a' [1]] 1 [2])).2
        = some (NfaErr.illegalStartTarget f
            (NFAJson.mk [1, 2] ['a'] [TransRecord.mk 2 'a' [1]] 1 [2]).start_state)) :=
  ⟨(from_json_to_json_roundtrip.1 exA (by decide) (by decide)).1,
   (from_json_to_json_roundtrip.1 exA (by decide) (by decide)).2.1,
   from_json_to_json_roundtrip.2 (NFAJson.mk [1, 2] ['a'] [TransRecord.mk 2 'a' [1]] 1 [2])
     (by decide) ⟨TransRecord.mk 2 'a' [1], List.mem_cons_self _ _, by decide⟩⟩

/-- Claim C6 counterexample: the concatenation of the two example automata
holds an epsilon-keyed entry; `to_json` serializes it, and `from_json`
re-adds it through `add_transition`, which rejects the NUL symbol as not
belonging to the alphabet — so deserializing the output of serializing
this valid composed automaton fails instead of succeeding. -/
theorem from_json_to_json_fails_on_epsilon :
    (from_json (to_json (concatenation exA exB))).2
      = some (NfaErr.invalidSymbol epsSymbol) := by
  decide

/-- Claim C4 counterexample: on the epsilon-edge automaton, `run` accepts
the one-character input consisting of the NUL epsilon marker (the table
entry is keyed by that literal character), but after `remove_unreachable`
prunes state 1 — which the alphabet-only traversal reports unreachable —
the same input is rejected: the claim fails for inputs outside the
alphabet. -/
theorem remove_unreachable_changes_verdict_on_eps :
    run exC [epsSymbol] = true
    ∧ run (remove_unreachable exC) [epsSymbol] = false := by
  constructor
  · decide
  · rw [remove_unreachable, get_unreachable_exC]
    decide

end NfaModel
